import Mathlib

/-! rmcp: the embedding and generation client layer.

A shallow embedding of `llm/llm.go` (vector codec and dot product) and of
`ollama/ollama.go` (batched embedding, error classification, generation call,
response assembly), with the properties of the specification stated over it.

Conventions of the embedding.

* A Go `[]byte` and a Go `string` are both byte sequences: `Bytes = List Nat`.
* A Go `float32` is represented by its IEEE-754 bit pattern, so that
  `math.Float32bits` and `math.Float32frombits` are the two directions of the
  representation.
* A Go slice that is written through (the receiver of `Decode`) is a backing
  array together with a length; the capacity is the length of the array.
* A run-time panic (index or slice bound out of range) is `none`.
* Go library code that the repository calls (`encoding/json`, `net/http`,
  `net/url`) enters as function arguments of the definitions that use it.
-/

namespace Rmcp

deriving instance DecidableEq for Except

/-- Contents of a Go `[]byte` or of a Go `string`. -/
abbrev Bytes := List Nat

/-- Bytes of an ASCII string literal. -/
def ascii (s : String) : Bytes := s.data.map Char.toNat

namespace llm

/-- Go `float32`, as its 32-bit pattern. -/
structure Float32 where
  bits : Nat
  isLt : bits < 4294967296
deriving DecidableEq, Repr

/-- Zero value of `float32` (the element `make` fills a new vector with). -/
def Float32.zero : Float32 := ⟨0, by decide⟩

/-- Go `math.Float32bits`. -/
def Float32bits (f : Float32) : Nat := f.bits

/-- Go `math.Float32frombits`; the argument is a `uint32`. -/
def Float32frombits (b : Nat) : Float32 := ⟨b % 4294967296, Nat.mod_lt _ (by decide)⟩

/-- Go `type Vector []float32`, as the sequence of its elements. -/
abbrev Vector := List Float32

/-- Go `binary.BigEndian.PutUint32(b[off:], v)`: the bounds check on `b[3]`
comes first, then the four bytes are stored, most significant first. -/
def PutUint32 (b : Bytes) (off : Nat) (v : Nat) : Option Bytes :=
  if off + 3 < b.length then
    some ((((b.set off ((v >>> 24) % 256)).set (off + 1) ((v >>> 16) % 256)).set
      (off + 2) ((v >>> 8) % 256)).set (off + 3) (v % 256))
  else none

/-- Go `binary.BigEndian.Uint32` on the four leading bytes of its argument. -/
def Uint32 (b0 b1 b2 b3 : Nat) : Nat :=
  (b3 ||| b2 <<< 8 ||| b1 <<< 16 ||| b0 <<< 24) % 4294967296

/-- The loop of `Vector.Encode`: `for i, f := range v`. -/
def encodeLoop : List Float32 → Nat → Bytes → Option Bytes
  | [], _, val => some val
  | f :: fs, i, val =>
    match PutUint32 val (4 * i) (Float32bits f) with
    | none => none
    | some val1 => encodeLoop fs (i + 1) val1

/-- Go `Vector.Encode`. -/
def Encode (v : Vector) : Option Bytes :=
  encodeLoop v 0 (List.replicate (4 * v.length) 0)

/-- A Go slice of `float32` that is written through: the backing array from the
start of the slice up to its capacity, and the length of the slice. -/
structure Slice where
  arr : List Float32
  len : Nat
deriving DecidableEq, Repr

/-- The elements of a slice. -/
def Slice.toList (s : Slice) : Vector := s.arr.take s.len

/-- A slice holding exactly the given elements (capacity equal to length). -/
def Slice.ofList (v : Vector) : Slice := ⟨v, v.length⟩

/-- Go `make(Vector, n)`. -/
def makeVector (n : Nat) : Slice := ⟨List.replicate n Float32.zero, n⟩

/-- Go `append(s, x)`: in place while there is capacity, otherwise into a new
array (whose spare capacity, chosen by the runtime, is left out). -/
def Slice.append (s : Slice) (x : Float32) : Slice :=
  if s.len < s.arr.length then ⟨s.arr.set s.len x, s.len + 1⟩
  else ⟨s.arr.take s.len ++ [x], s.len + 1⟩

/-- The loop of `Vector.Decode`: `for ; len(enc) >= 4; enc = enc[4:]`. -/
def decodeLoop : Slice → Bytes → Slice
  | s, b0 :: b1 :: b2 :: b3 :: rest =>
    decodeLoop (s.append (Float32frombits (Uint32 b0 b1 b2 b3))) rest
  | s, _ => s

/-- Go `(*Vector).Decode`: the receiver before the call is `v`, the result is
the receiver after it. -/
def Decode (v : Slice) (enc : Bytes) : Slice :=
  let v1 := if v.len < enc.length / 4 then makeVector (enc.length / 4) else v
  decodeLoop { v1 with len := 0 } enc

/-- The four bytes `PutUint32` stores for `v`, most significant first. -/
def be32 (v : Nat) : Bytes :=
  [(v >>> 24) % 256, (v >>> 16) % 256, (v >>> 8) % 256, v % 256]

/-- What the decoding loop appends: one element per complete group of four bytes. -/
def decodeList : Bytes → Vector
  | b0 :: b1 :: b2 :: b3 :: rest => Float32frombits (Uint32 b0 b1 b2 b3) :: decodeList rest
  | _ => []

/-- Go `v[:n]` on a vector whose capacity is its length. -/
def sliceTo {α : Type} (v : List α) (n : Nat) : Option (List α) :=
  if n ≤ v.length then some (v.take n) else none

/-- The loop of `Vector.Dot`: `for i := range v { t += float64(v[i]) * float64(w[i]) }`,
with `n` iterations left and `i` the current index. -/
def dotLoop {F64 : Type} (toF64 : Float32 → F64) (mul add : F64 → F64 → F64)
    (v w : Vector) : Nat → Nat → F64 → Option F64
  | 0, _, t => some t
  | n + 1, i, t =>
    match v[i]?, w[i]? with
    | some a, some b => dotLoop toF64 mul add v w n (i + 1) (add t (mul (toF64 a) (toF64 b)))
    | _, _ => none

/-- Go `Vector.Dot`. The `float64` arithmetic is a parameter: `toF64` is the
conversion `float64(x)`, `mul` and `add` are `*` and `+`, `zero` is `float64(0)`. -/
def Dot {F64 : Type} (toF64 : Float32 → F64) (mul add : F64 → F64 → F64) (zero : F64)
    (v w : Vector) : Option F64 :=
  match sliceTo v (min v.length w.length) with
  | none => none
  | some v1 =>
    match sliceTo w v1.length with
    | none => none
    | some w1 => dotLoop toF64 mul add v1 w1 v1.length 0 zero

/-- Go `llm.EmbedDoc`. -/
structure EmbedDoc where
  Title : Bytes
  Text : Bytes
deriving DecidableEq, Repr

end llm

namespace ollama

open llm

/-- A Go `error` value, by the text of its `Error()` method. -/
structure GoError where
  msg : Bytes
deriving DecidableEq, Repr

/-- Go `const maxBatch = 512`. -/
def maxBatch : Nat := 512

/-- Go `const EmbedUrl`. -/
def EmbedUrl : Bytes := ascii "/api/embed"

/-- Go `const GenUrl`. -/
def GenUrl : Bytes := ascii "/api/generate"

/-- Go `ollama.Response`. -/
structure Response where
  Model : Bytes
  CreatedAt : Bytes
  Response : Bytes
  Done : Bool
deriving DecidableEq, Repr

/-- Go `strings.Split(s, "\n")`: the segments between the newline bytes, one
more than there are newlines (a single empty segment for the empty string). -/
def splitLines : Bytes → List Bytes
  | [] => [[]]
  | c :: cs =>
    if c = 10 then [] :: splitLines cs
    else
      match splitLines cs with
      | [] => [[c]]
      | l :: ls => (c :: l) :: ls

/-- The loop of `AssembleRsp` over the lines still to read, `s` being the text
assembled so far. `unmarshal` is `json.Unmarshal` into a fresh `Response`. -/
def assembleLoop (unmarshal : Bytes → Except GoError Response) :
    List Bytes → Bytes → Bytes × Option GoError
  | [], s => (s, none)
  | line :: rest, s =>
    match unmarshal line with
    | .error err => (s, some err)
    | .ok resp => assembleLoop unmarshal rest (s ++ resp.Response)

/-- Go `AssembleRsp`: the returned pair `(string, error)`. -/
def AssembleRsp (unmarshal : Bytes → Except GoError Response) (d : Bytes) :
    Bytes × Option GoError :=
  assembleLoop unmarshal (splitLines d) []

/-- The loop of Go `slices.Chunk(s, n)`: `for i := 0; i < len(s); i += n`, each
turn yielding `s[i : i+min(n, len(s[i:]))]`. The first argument bounds the
number of turns. -/
def chunkLoop {α : Type} (s : List α) (n : Nat) : Nat → Nat → List (List α)
  | 0, _ => []
  | fuel + 1, i =>
    if i < s.length then
      ((s.drop i).take (min n (s.drop i).length)) :: chunkLoop s n fuel (i + n)
    else []

/-- Go `slices.Chunk(s, n)` for `n ≥ 1`, as the list of the sub-slices it yields.
The loop makes at most `len(s)` turns. -/
def Chunk {α : Type} (s : List α) (n : Nat) : List (List α) :=
  chunkLoop s n s.length 0

/-- An HTTP POST request as the client builds it: target and body (the two
headers are the same on every request). -/
structure HttpRequest where
  url : Bytes
  body : Bytes
deriving DecidableEq, Repr

/-- What the client reads of an `*http.Response`: `StatusCode`, `Status`, and
the outcome of `io.ReadAll(response.Body)`. -/
structure HttpResponse where
  StatusCode : Int
  Status : Bytes
  Body : Except GoError Bytes

/-- Go `hc.Do(request)` against a server in state `σ`. -/
abbrev Transport (σ : Type) := HttpRequest → σ → Except GoError HttpResponse × σ

/-- Go `ollama.Client` (the logger left out). -/
structure Client (σ : Type) where
  hc : Transport σ
  url : Bytes
  model : Bytes

/-- Go `embedError`: `none` is the `nil` error. `unmarshalError` is
`json.Unmarshal` into `struct{ Error string }`, giving the field. -/
def embedError (unmarshalError : Bytes → Except GoError Bytes) (resp : HttpResponse)
    (embResp : Bytes) : Option GoError :=
  if resp.StatusCode = 200 then none
  else if resp.StatusCode = 400 then
    match unmarshalError embResp with
    | .error err => some err
    | .ok e => some ⟨ascii "ollama response error: " ++ e⟩
  else some ⟨ascii "ollama response error: " ++ resp.Status⟩

/-- Go `embeddings`. `unmarshalEmbeddings` is `json.Unmarshal` into
`struct{ Embeddings []llm.Vector }`, giving the field. -/
def embeddings (unmarshalEmbeddings : Bytes → Except GoError (List Vector)) (embResp : Bytes) :
    Except GoError (List Vector) :=
  match unmarshalEmbeddings embResp with
  | .error err => .error err
  | .ok e => .ok e

/-- Go `embed`. `marshalEmbedReq model inputs` is `json.Marshal` of the request
`{model, input}`; `newRequest url body` is `http.NewRequestWithContext` with
method POST. -/
def embed {σ : Type} (marshalEmbedReq : Bytes → List Bytes → Except GoError Bytes)
    (newRequest : Bytes → Bytes → Except GoError HttpRequest)
    (unmarshalError : Bytes → Except GoError Bytes)
    (unmarshalEmbeddings : Bytes → Except GoError (List Vector))
    (hc : Transport σ) (embedURL : Bytes) (inputs : List Bytes)
    (model : Bytes) (s : σ) : Except GoError (List Vector) × σ :=
  match marshalEmbedReq model inputs with
  | .error err => (.error err, s)
  | .ok erj =>
    match newRequest embedURL erj with
    | .error err => (.error err, s)
    | .ok request =>
      match hc request s with
      | (.error err, s1) => (.error err, s1)
      | (.ok response, s1) =>
        match response.Body with
        | .error err => (.error err, s1)
        | .ok embResp =>
          match embedError unmarshalError response embResp with
          | some err => (.error err, s1)
          | none => (embeddings unmarshalEmbeddings embResp, s1)

/-- The text sent for one document: `doc.Title + "\n\n" + doc.Text`. -/
def inputOf (doc : EmbedDoc) : Bytes := doc.Title ++ ascii "\n\n" ++ doc.Text

/-- The loop of `Client.EmbedDocs` over the chunks still to send, `vecs` being
the vectors gathered so far; `call` is the call to `embed`. -/
def embedDocsLoop {σ : Type} (call : List Bytes → σ → Except GoError (List Vector) × σ) :
    List (List EmbedDoc) → List Vector → σ → (List Vector × Option GoError) × σ
  | [], vecs, s => ((vecs, none), s)
  | docs :: rest, vecs, s =>
    let inputs := docs.map inputOf
    match call inputs s with
    | (.error err, s1) => (([], some err), s1)
    | (.ok vs, s1) => embedDocsLoop call rest (vecs ++ vs) s1

/-- Go `Client.EmbedDocs` with the call to `embed` as an argument: the returned
pair `([]llm.Vector, error)` and the state of the server afterwards. -/
def EmbedDocsOver {σ : Type} (call : List Bytes → σ → Except GoError (List Vector) × σ)
    (docs : List EmbedDoc) (s : σ) : (List Vector × Option GoError) × σ :=
  embedDocsLoop call (Chunk docs maxBatch) [] s

/-- Go `Client.EmbedDocs`. `joinPath` is `(*url.URL).JoinPath` followed by
`String`. -/
def Client.EmbedDocs {σ : Type} (joinPath : Bytes → Bytes → Bytes)
    (marshalEmbedReq : Bytes → List Bytes → Except GoError Bytes)
    (newRequest : Bytes → Bytes → Except GoError HttpRequest)
    (unmarshalError : Bytes → Except GoError Bytes)
    (unmarshalEmbeddings : Bytes → Except GoError (List Vector))
    (c : Client σ) (docs : List EmbedDoc) (s : σ) : (List Vector × Option GoError) × σ :=
  EmbedDocsOver (fun inputs => embed marshalEmbedReq newRequest unmarshalError
    unmarshalEmbeddings c.hc (joinPath c.url EmbedUrl) inputs c.model) docs s

/-- One call of `embed` as seen from outside: the strings sent and the outcome. -/
structure CallRecord where
  inputs : List Bytes
  reply : Except GoError (List Vector)

/-- The vectors a call returned (none when it failed). -/
def CallRecord.vectors (r : CallRecord) : List Vector :=
  match r.reply with
  | .ok vs => vs
  | .error _ => []

/-- The same backend, keeping a log of the calls made to it next to its state. -/
def recording {σ : Type} (call : List Bytes → σ → Except GoError (List Vector) × σ) :
    List Bytes → σ × List CallRecord → Except GoError (List Vector) × (σ × List CallRecord) :=
  fun inputs st =>
    match call inputs st.1 with
    | (r, s1) => (r, (s1, st.2 ++ [⟨inputs, r⟩]))

/-- A backend whose first call succeeds, with an empty vector for every input,
and whose later calls fail; its state counts the calls made. -/
def failAfterFirst : List Bytes → Nat → Except GoError (List Vector) × Nat :=
  fun inputs k =>
    if k = 0 then (.ok (inputs.map (fun _ => [])), 1)
    else (.error ⟨ascii "connection refused"⟩, k + 1)

/-- Go `prompt`. `marshalPayload model` is `json.Marshal(requestPayload)` and
`marshalAsk model` is `json.Marshal(ask)`; the two `fmt.Printf` calls are left
out. -/
def prompt {σ : Type} (marshalPayload marshalAsk : Bytes → Except GoError Bytes)
    (newRequest : Bytes → Bytes → Except GoError HttpRequest)
    (hc : Transport σ) (u : Bytes) (_inputs : Bytes)
    (model : Bytes) (s : σ) : Except GoError Bytes × σ :=
  match marshalPayload model with
  | .error err => (.error ⟨ascii "failed to marshal request payload: " ++ err.msg⟩, s)
  | .ok jsonPayload =>
    match newRequest u jsonPayload with
    | .error err => (.error err, s)
    | .ok request =>
      match hc request s with
      | (.error err, s1) => (.error err, s1)
      | (.ok response, s1) =>
        match response.Body with
        | .error err => (.error err, s1)
        | .ok _ =>
          match marshalAsk model with
          | .error err => (.error err, s1)
          | .ok erj =>
            match newRequest u erj with
            | .error err => (.error err, s1)
            | .ok request2 =>
              match hc request2 s1 with
              | (.error err, s2) => (.error err, s2)
              | (.ok response2, s2) =>
                match response2.Body with
                | .error err => (.error err, s2)
                | .ok rsp => (.ok rsp, s2)

/-- Go `Client.Prompt`. -/
def Client.Prompt {σ : Type} (joinPath : Bytes → Bytes → Bytes)
    (marshalPayload marshalAsk : Bytes → Except GoError Bytes)
    (newRequest : Bytes → Bytes → Except GoError HttpRequest)
    (c : Client σ) (input : Bytes) (s : σ) : Except GoError Bytes × σ :=
  match prompt marshalPayload marshalAsk newRequest c.hc (joinPath c.url GenUrl) input c.model s with
  | (.error err, s1) => (.error err, s1)
  | (.ok rsp, s1) => (.ok rsp, s1)

/-- A server that gives the same answer to every request. -/
def fixedServer (code : Int) (status body : Bytes) : Transport Unit :=
  fun _ s => (.ok ⟨code, status, .ok body⟩, s)

end ollama

/-! ## A reference decoder

The functions of `encoding/json` are parameters of the definitions above. The decoder below is
an instance of that parameter for concrete inputs: it follows `json.Unmarshal`
on the fragment of JSON made of a top-level `null`, or of an object whose
members are strings (with the two-character escapes), `true`, `false` or
`null`, and reports any other input as malformed. -/

namespace json

open ollama

/-- A member value of the fragment. -/
inductive Value where
  | null
  | bool (b : Bool)
  | str (s : Bytes)
deriving DecidableEq, Repr

/-- The text of the error for input that is not in the fragment. -/
def invalidInput : GoError := ⟨ascii "json: invalid input"⟩

/-- The text of the error for a member whose value does not fit its field. -/
def typeError : GoError := ⟨ascii "json: cannot unmarshal value into Go struct field"⟩

/-- Space, tab, line feed, carriage return. -/
def isSpace (c : Nat) : Bool := c = 32 || c = 9 || c = 10 || c = 13

/-- Skips leading white space. -/
def skipSpace : Bytes → Bytes
  | [] => []
  | c :: cs => if isSpace c then skipSpace cs else c :: cs

/-- The byte a two-character escape stands for. -/
def unescape (c : Nat) : Option Nat :=
  if c = 34 then some 34 else if c = 92 then some 92 else if c = 47 then some 47
  else if c = 98 then some 8 else if c = 102 then some 12 else if c = 110 then some 10
  else if c = 114 then some 13 else if c = 116 then some 9 else none

/-- Reads a string after its opening quote: the contents and the input after
the closing quote. The first argument bounds the number of bytes read. -/
def scanString : Nat → Bytes → Bytes → Option (Bytes × Bytes)
  | 0, _, _ => none
  | _ + 1, [], _ => none
  | fuel + 1, c :: rest, acc =>
    if c = 34 then some (acc, rest)
    else if c = 92 then
      match rest with
      | [] => none
      | e :: rest2 =>
        match unescape e with
        | none => none
        | some b => scanString fuel rest2 (acc ++ [b])
    else if c < 32 then none
    else scanString fuel rest (acc ++ [c])

/-- Drops the literal `lit` from the front of the input, if it is there. -/
def expect : Bytes → Bytes → Option Bytes
  | [], cs => some cs
  | _ :: _, [] => none
  | l :: ls, c :: cs => if l = c then expect ls cs else none

/-- Reads one member value. -/
def scanValue (cs : Bytes) : Option (Value × Bytes) :=
  match cs with
  | [] => none
  | c :: rest =>
    if c = 34 then
      match scanString rest.length rest [] with
      | none => none
      | some (s, r) => some (Value.str s, r)
    else
      match expect (ascii "true") cs with
      | some r => some (Value.bool true, r)
      | none =>
        match expect (ascii "false") cs with
        | some r => some (Value.bool false, r)
        | none =>
          match expect (ascii "null") cs with
          | some r => some (Value.null, r)
          | none => none

/-- Reads the members of an object from the opening quote of a key up to and
including the closing brace. The first argument bounds the number of members. -/
def scanMembers : Nat → Bytes → List (Bytes × Value) → Option (List (Bytes × Value) × Bytes)
  | 0, _, _ => none
  | fuel + 1, cs, acc =>
    match cs with
    | [] => none
    | q :: r0 =>
      if q = 34 then
        match scanString r0.length r0 [] with
        | none => none
        | some (key, r1) =>
          match skipSpace r1 with
          | [] => none
          | colon :: r2 =>
            if colon = 58 then
              match scanValue (skipSpace r2) with
              | none => none
              | some (v, r3) =>
                match skipSpace r3 with
                | [] => none
                | sep :: r4 =>
                  if sep = 44 then scanMembers fuel (skipSpace r4) (acc ++ [(key, v)])
                  else if sep = 125 then some (acc ++ [(key, v)], r4)
                  else none
            else none
      else none

/-- Reads the whole input: `some none` for a top-level `null`, `some (some ms)`
for an object with members `ms`, `none` for anything else. -/
def scanDocument (d : Bytes) : Option (Option (List (Bytes × Value))) :=
  match skipSpace d with
  | [] => none
  | c :: r =>
    if c = 123 then
      match skipSpace r with
      | [] => none
      | c1 :: r1 =>
        if c1 = 125 then
          (if skipSpace r1 = [] then some (some []) else none)
        else
          match scanMembers (c1 :: r1).length (c1 :: r1) [] with
          | none => none
          | some (ms, r2) => if skipSpace r2 = [] then some (some ms) else none
    else
      match expect (ascii "null") (c :: r) with
      | some r1 => if skipSpace r1 = [] then some none else none
      | none => none

/-- ASCII lower case, for the case-insensitive match of member names. -/
def lower (c : Nat) : Nat := if 65 ≤ c ∧ c ≤ 90 then c + 32 else c

/-- Stores a member into a string field: `null` has no effect, a boolean is a
type error (the earliest one is kept). -/
def setString (v : Value) (old : Bytes) (err : Option GoError) : Bytes × Option GoError :=
  match v with
  | Value.str s => (s, err)
  | Value.null => (old, err)
  | Value.bool _ => (old, err.orElse (fun _ => some typeError))

/-- Stores a member into a boolean field. -/
def setBool (v : Value) (old : Bool) (err : Option GoError) : Bool × Option GoError :=
  match v with
  | Value.bool b => (b, err)
  | Value.null => (old, err)
  | Value.str _ => (old, err.orElse (fun _ => some typeError))

/-- Stores one member into a `Response`; members of other names are skipped. -/
def setResponseField (st : Response × Option GoError) (m : Bytes × Value) :
    Response × Option GoError :=
  let name := m.1.map lower
  if name = ascii "model" then
    let r := setString m.2 st.1.Model st.2
    ({ st.1 with Model := r.1 }, r.2)
  else if name = ascii "created_at" then
    let r := setString m.2 st.1.CreatedAt st.2
    ({ st.1 with CreatedAt := r.1 }, r.2)
  else if name = ascii "response" then
    let r := setString m.2 st.1.Response st.2
    ({ st.1 with Response := r.1 }, r.2)
  else if name = ascii "done" then
    let r := setBool m.2 st.1.Done st.2
    ({ st.1 with Done := r.1 }, r.2)
  else st

/-- The reference instance of `json.Unmarshal(line, &resp)` for a fresh `resp`. -/
def unmarshalResponse (d : Bytes) : Except GoError Response :=
  match scanDocument d with
  | none => .error invalidInput
  | some none => .ok ⟨[], [], [], false⟩
  | some (some ms) =>
    match ms.foldl setResponseField (⟨[], [], [], false⟩, none) with
    | (r, none) => .ok r
    | (_, some err) => .error err

/-- Stores one member into `struct{ Error string }`. -/
def setErrorField (st : Bytes × Option GoError) (m : Bytes × Value) : Bytes × Option GoError :=
  if m.1.map lower = ascii "error" then setString m.2 st.1 st.2 else st

/-- The reference instance of `json.Unmarshal(embResp, &e)` for
`var e struct{ Error string }`, giving `e.Error`. -/
def unmarshalError (d : Bytes) : Except GoError Bytes :=
  match scanDocument d with
  | none => .error invalidInput
  | some none => .ok []
  | some (some ms) =>
    match ms.foldl setErrorField ([], none) with
    | (e, none) => .ok e
    | (_, some err) => .error err

end json

end Rmcp

/-! ## Lemmas on the vector codec and the dot product -/

namespace Rmcp.llm

theorem PutUint32_append (pre rest : Bytes) (a b c d v : Nat) :
    PutUint32 (pre ++ a :: b :: c :: d :: rest) pre.length v = some (pre ++ be32 v ++ rest) := by
  unfold PutUint32
  have hlen : pre.length + 3 < (pre ++ a :: b :: c :: d :: rest).length := by
    simp only [List.length_append, List.length_cons]; omega
  rw [if_pos hlen]
  congr 1
  induction pre with
  | nil => simp [be32]
  | cons p ps ih =>
    have h := ih (by simp only [List.length_append, List.length_cons]; omega)
    simp only [List.cons_append, List.length_cons, List.set_cons_succ, Nat.add_right_comm _ 1] at h ⊢
    rw [h]

theorem encodeLoop_spec (fs : List Float32) : ∀ (i : Nat) (pre : Bytes), pre.length = 4 * i →
    encodeLoop fs i (pre ++ List.replicate (4 * fs.length) 0)
      = some (pre ++ fs.flatMap (fun f => be32 (Float32bits f))) := by
  induction fs with
  | nil => intro i pre _; simp [encodeLoop]
  | cons f fs ih =>
    intro i pre hpre
    have hrep : List.replicate (4 * (f :: fs).length) 0
        = 0 :: 0 :: 0 :: 0 :: List.replicate (4 * fs.length) (0 : Nat) := by
      simp only [List.length_cons, Nat.mul_add, Nat.mul_one, List.replicate_succ]
    rw [hrep, encodeLoop, ← hpre, PutUint32_append]
    simp only
    have := ih (i + 1) (pre ++ be32 (Float32bits f)) (by simp [be32]; omega)
    simp only [List.append_assoc] at this ⊢
    rw [this]
    simp [List.flatMap_cons]

theorem Encode_eq (v : Vector) : Encode v = some (v.flatMap (fun f => be32 (Float32bits f))) := by
  have := encodeLoop_spec v 0 [] rfl
  simpa [Encode] using this

theorem or_shift_eq_add (lo hi i : Nat) (h : lo < 2 ^ i) : lo ||| hi <<< i = hi * 2 ^ i + lo := by
  rw [Nat.shiftLeft_eq, Nat.or_comm, Nat.mul_comm hi, ← Nat.mul_add_lt_is_or h hi]

theorem Uint32_eq_sum (b0 b1 b2 b3 : Nat) (h0 : b0 < 256) (h1 : b1 < 256) (h2 : b2 < 256)
    (h3 : b3 < 256) : Uint32 b0 b1 b2 b3 = b0 * 16777216 + b1 * 65536 + b2 * 256 + b3 := by
  unfold Uint32
  rw [or_shift_eq_add b3 b2 8 (by simpa using h3),
    or_shift_eq_add _ b1 16 (by simp only [Nat.reducePow]; omega),
    or_shift_eq_add _ b0 24 (by simp only [Nat.reducePow]; omega)]
  simp only [Nat.reducePow]
  omega

theorem Float32frombits_be32 (f : Float32) :
    Float32frombits (Uint32 ((f.bits >>> 24) % 256) ((f.bits >>> 16) % 256)
      ((f.bits >>> 8) % 256) (f.bits % 256)) = f := by
  have hlt := f.isLt
  rw [Uint32_eq_sum _ _ _ _ (Nat.mod_lt _ (by decide)) (Nat.mod_lt _ (by decide))
    (Nat.mod_lt _ (by decide)) (Nat.mod_lt _ (by decide))]
  cases f with
  | mk bits isLt =>
    simp only [Float32frombits, Float32.mk.injEq, Nat.shiftRight_eq_div_pow, Nat.reducePow] at hlt ⊢
    omega

theorem decodeList_encode (v : Vector) :
    decodeList (v.flatMap (fun f => be32 (Float32bits f))) = v := by
  induction v with
  | nil => rfl
  | cons f fs ih =>
    rw [List.flatMap_cons]
    show decodeList (_ :: _ :: _ :: _ :: _) = _
    rw [decodeList]
    show _ :: decodeList (fs.flatMap _) = _
    rw [ih]
    exact congrArg (· :: fs) (Float32frombits_be32 f)

theorem Slice.append_toList (s : Slice) (x : Float32) :
    (s.append x).toList = s.toList ++ [x] := by
  unfold Slice.append Slice.toList
  split
  · rename_i h
    simp only
    rw [List.take_succ, List.set_take,
      List.set_eq_of_length_le (by simp [List.length_take]), List.getElem?_set_self h]
    rfl
  · rename_i h
    simp only
    rw [List.take_of_length_le]
    simp only [List.length_append, List.length_take, List.length_singleton]
    omega

theorem decodeLoop_toList : ∀ (enc : Bytes) (s : Slice),
    (decodeLoop s enc).toList = s.toList ++ decodeList enc
  | [], s => by simp [decodeLoop, decodeList]
  | [_], s => by simp [decodeLoop, decodeList]
  | [_, _], s => by simp [decodeLoop, decodeList]
  | [_, _, _], s => by simp [decodeLoop, decodeList]
  | b0 :: b1 :: b2 :: b3 :: rest, s => by
    rw [decodeLoop, decodeLoop_toList rest, Slice.append_toList, decodeList]
    simp

theorem Decode_toList (v : Slice) (enc : Bytes) : (Decode v enc).toList = decodeList enc := by
  unfold Decode
  rw [decodeLoop_toList]
  simp [Slice.toList]

theorem decodeList_length : ∀ (enc : Bytes), (decodeList enc).length = enc.length / 4
  | [] => rfl
  | [_] => by simp [decodeList]
  | [_, _] => by simp [decodeList]
  | [_, _, _] => by simp [decodeList]
  | _ :: _ :: _ :: _ :: rest => by
    rw [decodeList, List.length_cons, decodeList_length rest]
    simp only [List.length_cons]
    omega

theorem decodeList_take : ∀ (enc : Bytes),
    decodeList (enc.take (4 * (enc.length / 4))) = decodeList enc
  | [] => rfl
  | [_] => by simp [decodeList]
  | [_, _] => by simp [decodeList]
  | [_, _, _] => by simp [decodeList]
  | b0 :: b1 :: b2 :: b3 :: rest => by
    have h : 4 * ((b0 :: b1 :: b2 :: b3 :: rest).length / 4)
        = 4 * (rest.length / 4) + 1 + 1 + 1 + 1 := by
      simp only [List.length_cons]; omega
    rw [h]
    simp only [List.take_succ_cons, decodeList]
    rw [decodeList_take rest]

theorem decodeList_getElem? : ∀ (enc : Bytes) (i : Nat), i < enc.length / 4 →
    (decodeList enc)[i]? = some (Float32frombits (Uint32 (enc.getD (4 * i) 0)
      (enc.getD (4 * i + 1) 0) (enc.getD (4 * i + 2) 0) (enc.getD (4 * i + 3) 0)))
  | [], i, h => by simp only [List.length_nil] at h; omega
  | [_], i, h => by simp only [List.length_cons, List.length_nil] at h; omega
  | [_, _], i, h => by simp only [List.length_cons, List.length_nil] at h; omega
  | [_, _, _], i, h => by simp only [List.length_cons, List.length_nil] at h; omega
  | b0 :: b1 :: b2 :: b3 :: rest, 0, _ => by simp [decodeList]
  | b0 :: b1 :: b2 :: b3 :: rest, i + 1, h => by
    have hi : i < rest.length / 4 := by simp only [List.length_cons] at h; omega
    have e : 4 * (i + 1) = 4 * i + 1 + 1 + 1 + 1 := by omega
    rw [decodeList, List.getElem?_cons_succ, decodeList_getElem? rest i hi, e]
    simp only [List.getD_cons_succ]

theorem dotLoop_eq {F64 : Type} (toF64 : Float32 → F64) (mul add : F64 → F64 → F64)
    (v w : Vector) (hlen : v.length = w.length) : ∀ (n i : Nat) (t : F64), i + n = v.length →
    dotLoop toF64 mul add v w n i t
      = some (List.foldl (fun t p => add t (mul (toF64 p.1) (toF64 p.2))) t
          (List.zip (v.drop i) (w.drop i))) := by
  intro n
  induction n with
  | zero =>
    intro i t h
    have hv : v.drop i = [] := List.drop_eq_nil_of_le (by omega)
    simp [dotLoop, hv]
  | succ n ih =>
    intro i t h
    have hiv : i < v.length := by omega
    have hiw : i < w.length := by omega
    rw [dotLoop, List.getElem?_eq_getElem hiv, List.getElem?_eq_getElem hiw]
    simp only
    rw [ih (i + 1) _ (by omega), List.drop_eq_getElem_cons hiv, List.drop_eq_getElem_cons hiw]
    simp only [List.zip_cons_cons, List.foldl_cons]

end Rmcp.llm

/-! ## Lemmas on response assembly -/

namespace Rmcp.ollama

open llm

/-! ### Splitting into lines -/

theorem splitLines_ne_nil : ∀ (d : Bytes), splitLines d ≠ []
  | [] => by simp [splitLines]
  | c :: cs => by
    unfold splitLines
    split
    · simp
    · split <;> simp

theorem splitLines_line (l : Bytes) (h : 10 ∉ l) : splitLines l = [l] := by
  induction l with
  | nil => rfl
  | cons c cs ih =>
    have hc : c ≠ 10 := fun e => h (by simp [e])
    have hcs : 10 ∉ cs := fun m => h (List.mem_cons_of_mem _ m)
    rw [splitLines, if_neg hc, ih hcs]

theorem splitLines_line_append (l rest : Bytes) (h : 10 ∉ l) :
    splitLines (l ++ 10 :: rest) = l :: splitLines rest := by
  induction l with
  | nil => simp [splitLines]
  | cons c cs ih =>
    have hc : c ≠ 10 := fun e => h (by simp [e])
    have hcs : 10 ∉ cs := fun m => h (List.mem_cons_of_mem _ m)
    rw [List.cons_append, splitLines, if_neg hc, ih hcs]

theorem splitLines_snoc_newline (body : Bytes) :
    splitLines (body ++ [10]) = splitLines body ++ [[]] := by
  induction body with
  | nil => simp [splitLines]
  | cons c cs ih =>
    rw [List.cons_append, splitLines, splitLines, ih]
    by_cases hc : c = 10
    · simp [hc]
    · rw [if_neg hc, if_neg hc]
      cases hs : splitLines cs with
      | nil => exact absurd hs (splitLines_ne_nil cs)
      | cons l ls => simp

theorem intercalate_cons_cons (sep a b : Bytes) (ls : List Bytes) :
    List.intercalate sep (a :: b :: ls) = a ++ sep ++ List.intercalate sep (b :: ls) := by
  simp [List.intercalate, List.intersperse]

theorem splitLines_intercalate : ∀ (lines : List Bytes), lines ≠ [] → (∀ l ∈ lines, 10 ∉ l) →
    splitLines (List.intercalate [10] lines) = lines
  | [], h, _ => absurd rfl h
  | [l], _, hnl => by
    have : List.intercalate [10] [l] = l := by simp [List.intercalate, List.intersperse]
    rw [this, splitLines_line l (hnl l (by simp))]
  | a :: b :: ls, _, hnl => by
    rw [intercalate_cons_cons, List.append_assoc, List.singleton_append,
      splitLines_line_append _ _ (hnl a (by simp)),
      splitLines_intercalate (b :: ls) (by simp) (fun l hl => hnl l (List.mem_cons_of_mem _ hl))]

/-! ### The assembly loop -/

theorem assembleLoop_ok (unmarshal : Bytes → Except GoError Response) :
    ∀ (lines : List Bytes) (rs : List Response) (s : Bytes),
    List.Forall₂ (fun l r => unmarshal l = .ok r) lines rs →
    assembleLoop unmarshal lines s = (s ++ (rs.map (fun r => r.Response)).flatten, none) := by
  intro lines rs s h
  induction h generalizing s with
  | nil => simp [assembleLoop]
  | cons hd _ ih =>
    rw [assembleLoop, hd]
    simp only
    rw [ih]
    simp

theorem assembleLoop_append (unmarshal : Bytes → Except GoError Response)
    (pre : List Bytes) (rs : List Response) (rest : List Bytes) (s : Bytes)
    (h : List.Forall₂ (fun l r => unmarshal l = .ok r) pre rs) :
    assembleLoop unmarshal (pre ++ rest) s
      = assembleLoop unmarshal rest (s ++ (rs.map (fun r => r.Response)).flatten) := by
  induction h generalizing s with
  | nil => simp
  | cons hd _ ih =>
    rw [List.cons_append, assembleLoop, hd]
    simp only
    rw [ih]
    simp

theorem first_failure (unmarshal : Bytes → Except GoError Response) :
    ∀ (lines : List Bytes), (∃ l ∈ lines, ∃ e, unmarshal l = .error e) →
    ∃ pre bad post rs err, lines = pre ++ bad :: post ∧
      List.Forall₂ (fun l r => unmarshal l = .ok r) pre rs ∧ unmarshal bad = .error err
  | [], h => by obtain ⟨l, hl, _⟩ := h; simp at hl
  | a :: as, h => by
    cases ha : unmarshal a with
    | error e => exact ⟨[], a, as, [], e, rfl, List.Forall₂.nil, ha⟩
    | ok r =>
      have h2 : ∃ l ∈ as, ∃ e, unmarshal l = .error e := by
        obtain ⟨l, hl, e, he⟩ := h
        rcases List.mem_cons.mp hl with rfl | hl
        · rw [ha] at he; cases he
        · exact ⟨l, hl, e, he⟩
      obtain ⟨pre, bad, post, rs, err, hsplit, hpre, hbad⟩ := first_failure unmarshal as h2
      exact ⟨a :: pre, bad, post, r :: rs, err, by rw [hsplit]; rfl,
        List.Forall₂.cons ha hpre, hbad⟩

theorem assemble_stops_at_first_failure (unmarshal : Bytes → Except GoError Response)
    (d : Bytes) (hbad : ∃ l ∈ splitLines d, ∃ e, unmarshal l = .error e) :
    ∃ pre bad post rs err, splitLines d = pre ++ bad :: post ∧
      List.Forall₂ (fun l r => unmarshal l = .ok r) pre rs ∧
      unmarshal bad = .error err ∧
      AssembleRsp unmarshal d = ((rs.map (fun r => r.Response)).flatten, some err) := by
  obtain ⟨pre, bad, post, rs, err, hsplit, hpre, herr⟩ := first_failure unmarshal _ hbad
  refine ⟨pre, bad, post, rs, err, hsplit, hpre, herr, ?_⟩
  unfold AssembleRsp
  rw [hsplit, assembleLoop_append unmarshal pre rs _ [] hpre, assembleLoop, herr]
  rfl

end Rmcp.ollama

/-! ## Lemmas on batched embedding -/

namespace Rmcp.ollama

open llm

/-! ### Chunks -/

theorem take_min_append_drop {α : Type} (l : List α) (i n : Nat) :
    (l.drop i).take (min n (l.drop i).length) ++ l.drop (i + n) = l.drop i := by
  have h1 : (l.drop i).take (min n (l.drop i).length) = (l.drop i).take n := by
    by_cases h : n ≤ (l.drop i).length
    · rw [Nat.min_eq_left h]
    · rw [Nat.min_eq_right (by omega), List.take_of_length_le (Nat.le_refl _),
        List.take_of_length_le (by omega)]
  have h2 : l.drop (i + n) = (l.drop i).drop n := by
    rw [List.drop_drop, Nat.add_comm]
  rw [h1, h2, List.take_append_drop]

theorem chunkLoop_flatten {α : Type} (s : List α) (n : Nat) (hn : 0 < n) :
    ∀ (fuel i : Nat), s.length ≤ i + fuel → (chunkLoop s n fuel i).flatten = s.drop i := by
  intro fuel
  induction fuel with
  | zero =>
    intro i h
    rw [chunkLoop, List.drop_eq_nil_of_le (by omega)]
    rfl
  | succ fuel ih =>
    intro i h
    rw [chunkLoop]
    by_cases hi : i < s.length
    · rw [if_pos hi, List.flatten_cons, ih (i + n) (by omega), take_min_append_drop]
    · rw [if_neg hi, List.drop_eq_nil_of_le (by omega)]
      rfl

theorem chunkLoop_bound {α : Type} (s : List α) (n : Nat) :
    ∀ (fuel i : Nat), ∀ c ∈ chunkLoop s n fuel i, c.length ≤ n := by
  intro fuel
  induction fuel with
  | zero => intro i c hc; simp [chunkLoop] at hc
  | succ fuel ih =>
    intro i c hc
    rw [chunkLoop] at hc
    by_cases hi : i < s.length
    · rw [if_pos hi] at hc
      rcases List.mem_cons.mp hc with rfl | hc
      · rw [List.length_take]; omega
      · exact ih _ c hc
    · rw [if_neg hi] at hc; simp at hc

theorem chunkLoop_count {α : Type} (s : List α) :
    ∀ (fuel i : Nat), s.length ≤ i + fuel →
      (chunkLoop s 512 fuel i).length = (s.length - i + 511) / 512 := by
  intro fuel
  induction fuel with
  | zero => intro i h; rw [chunkLoop, List.length_nil]; omega
  | succ fuel ih =>
    intro i h
    rw [chunkLoop]
    by_cases hi : i < s.length
    · rw [if_pos hi, List.length_cons, ih (i + 512) (by omega)]; omega
    · rw [if_neg hi, List.length_nil]; omega

theorem Chunk_flatten {α : Type} (s : List α) (n : Nat) (hn : 0 < n) :
    (Chunk s n).flatten = s := by
  have := chunkLoop_flatten s n hn s.length 0 (by omega)
  simpa [Chunk] using this

/-! ### The embedding loop -/

theorem embedDocsLoop_recording {σ : Type}
    (call : List Bytes → σ → Except GoError (List Vector) × σ)
    (hcall : ∀ inputs s, ∃ vs, (call inputs s).1 = .ok vs ∧ vs.length = inputs.length) :
    ∀ (chunks : List (List EmbedDoc)) (vecs : List Vector) (s : σ) (log : List CallRecord),
    ∃ s1 recs,
      embedDocsLoop (recording call) chunks vecs (s, log)
        = ((vecs ++ recs.flatMap CallRecord.vectors, none), (s1, log ++ recs)) ∧
      recs.map CallRecord.inputs = chunks.map (fun c => c.map inputOf) ∧
      ∀ r ∈ recs, ∃ vs, r.reply = .ok vs ∧ vs.length = r.inputs.length := by
  intro chunks
  induction chunks with
  | nil =>
    intro vecs s log
    exact ⟨s, [], by simp [embedDocsLoop], rfl, by simp⟩
  | cons c cs ih =>
    intro vecs s log
    obtain ⟨vs, hvs, hlen⟩ := hcall (c.map inputOf) s
    have hrec : recording call (c.map inputOf) (s, log)
        = (.ok vs, ((call (c.map inputOf) s).2, log ++ [⟨c.map inputOf, .ok vs⟩])) := by
      unfold recording
      rw [← hvs]
    obtain ⟨s1, recs, hrun, hin, hrep⟩ :=
      ih (vecs ++ vs) (call (c.map inputOf) s).2 (log ++ [⟨c.map inputOf, .ok vs⟩])
    refine ⟨s1, ⟨c.map inputOf, .ok vs⟩ :: recs, ?_, ?_, ?_⟩
    · rw [embedDocsLoop]
      simp only [hrec]
      rw [hrun]
      simp [CallRecord.vectors]
    · simp [hin]
    · intro r hr
      rcases List.mem_cons.mp hr with rfl | hr
      · exact ⟨vs, rfl, hlen⟩
      · exact hrep r hr

theorem vectors_length_sum (recs : List CallRecord)
    (h : ∀ r ∈ recs, ∃ vs, r.reply = .ok vs ∧ vs.length = r.inputs.length) :
    (recs.flatMap CallRecord.vectors).length = (recs.map CallRecord.inputs).flatten.length := by
  induction recs with
  | nil => rfl
  | cons r rs ih =>
    obtain ⟨vs, hvs, hlen⟩ := h r (by simp)
    have hv : r.vectors = vs := by simp [CallRecord.vectors, hvs]
    rw [List.flatMap_cons, List.length_append, List.map_cons, List.flatten_cons,
      List.length_append, ih (fun x hx => h x (List.mem_cons_of_mem _ hx)), hv, hlen]

theorem embedDocsLoop_error {σ : Type}
    (call : List Bytes → σ → Except GoError (List Vector) × σ) :
    ∀ (chunks : List (List EmbedDoc)) (vecs : List Vector) (s : σ),
    (embedDocsLoop call chunks vecs s).1.2 ≠ none → (embedDocsLoop call chunks vecs s).1.1 = [] := by
  intro chunks
  induction chunks with
  | nil => intro vecs s h; simp [embedDocsLoop] at h
  | cons c cs ih =>
    intro vecs s h
    rw [embedDocsLoop] at h ⊢
    cases hc : call (c.map inputOf) s with
    | mk r s1 =>
      cases r with
      | error err => simp [hc]
      | ok vs =>
        simp only [hc] at h ⊢
        exact ih _ _ h

end Rmcp.ollama

/-! ## The vector codec and the dot product -/

namespace Rmcp.llm

/-- C1: whatever the receiver held before, decoding the bytes that `Encode`
returns for `v` leaves the receiver equal to `v`, element by element. -/
theorem Decode_Encode_roundtrip (v : Vector) (prior : Slice) :
    ∃ enc, Encode v = some enc ∧ enc.length = 4 * v.length ∧ (Decode prior enc).toList = v := by
  refine ⟨_, Encode_eq v, ?_, ?_⟩
  · induction v with
    | nil => rfl
    | cons f fs ih => rw [List.flatMap_cons, List.length_append, ih]; simp [be32]; omega
  · rw [Decode_toList, decodeList_encode]

/-- C8: after `Decode(enc)` the receiver has `len(enc)/4` elements whatever it
held before, element `i` has the big-endian integer of `enc[4i..4i+3]` as its
bit pattern, the trailing `len(enc) mod 4` bytes play no part, and an empty
input gives an empty vector. -/
theorem Decode_elements (prior : Slice) (enc : Bytes) (hb : ∀ b ∈ enc, b < 256) :
    (Decode prior enc).toList.length = enc.length / 4 ∧
    (∀ i, i < enc.length / 4 → ∃ f, (Decode prior enc).toList[i]? = some f ∧
      Float32bits f = enc.getD (4 * i) 0 * 16777216 + enc.getD (4 * i + 1) 0 * 65536
        + enc.getD (4 * i + 2) 0 * 256 + enc.getD (4 * i + 3) 0) ∧
    (Decode prior enc).toList = (Decode prior (enc.take (4 * (enc.length / 4)))).toList ∧
    (enc = [] → (Decode prior enc).toList = []) := by
  have hget : ∀ k, enc.getD k 0 < 256 := by
    intro k
    rw [List.getD_eq_getElem?_getD]
    cases hk : enc[k]? with
    | none => simp
    | some x => exact hb x (List.getElem?_mem hk)
  refine ⟨?_, ?_, ?_, ?_⟩
  · rw [Decode_toList, decodeList_length]
  · intro i hi
    refine ⟨_, by rw [Decode_toList]; exact decodeList_getElem? enc i hi, ?_⟩
    rw [Uint32_eq_sum _ _ _ _ (hget _) (hget _) (hget _) (hget _)]
    have h0 := hget (4 * i)
    have h1 := hget (4 * i + 1)
    have h2 := hget (4 * i + 2)
    have h3 := hget (4 * i + 3)
    simp only [Float32bits, Float32frombits]
    omega
  · rw [Decode_toList, Decode_toList, decodeList_take]
  · intro h; subst h; rfl

theorem Decode_elements_witness :
    (∀ b ∈ ([0, 0, 1, 2, 255, 0, 0, 7, 9] : Bytes), b < 256) ∧
    (Decode (Slice.ofList [Float32.zero, Float32.zero, Float32.zero]) [0, 0, 1, 2, 255, 0, 0, 7, 9]).toList.length
      = 2 :=
  ⟨by decide, (Decode_elements _ _ (by decide)).1⟩

/-- C9: `v.Dot(w)` never goes out of range, is the sum of `v[i]*w[i]` taken in
index order over the indices both vectors have, and equals the dot product of
the two vectors cut to the shorter length. -/
theorem Dot_truncates {F64 : Type} (toF64 : Float32 → F64) (mul add : F64 → F64 → F64)
    (zero : F64) (v w : Vector) :
    Dot toF64 mul add zero v w
      = some (List.foldl (fun t p => add t (mul (toF64 p.1) (toF64 p.2))) zero
          (List.zip (v.take (min v.length w.length)) (w.take (min v.length w.length)))) ∧
    Dot toF64 mul add zero v w
      = Dot toF64 mul add zero (v.take (min v.length w.length)) (w.take (min v.length w.length)) := by
  have key : ∀ a b : Vector, Dot toF64 mul add zero a b
      = some (List.foldl (fun t p => add t (mul (toF64 p.1) (toF64 p.2))) zero
          (List.zip (a.take (min a.length b.length)) (b.take (min a.length b.length)))) := by
    intro a b
    unfold Dot sliceTo
    have hm : (a.take (min a.length b.length)).length = min a.length b.length := by
      rw [List.length_take]; omega
    rw [if_pos (Nat.min_le_left _ _)]
    simp only
    rw [hm, if_pos (Nat.min_le_right _ _)]
    simp only
    have hl : (a.take (min a.length b.length)).length
        = (b.take (min a.length b.length)).length := by
      simp only [List.length_take]; omega
    rw [dotLoop_eq toF64 mul add _ _ hl _ 0 zero (by omega)]
    simp only [List.drop_zero]
  refine ⟨key v w, ?_⟩
  have hm : min (v.take (min v.length w.length)).length (w.take (min v.length w.length)).length
      = min v.length w.length := by
    simp only [List.length_take]; omega
  rw [key v w, key, hm]
  simp only [List.take_take, Nat.min_self]

end Rmcp.llm

/-! ## Batched embedding -/

namespace Rmcp.ollama

open llm

/-- C2: with a backend that succeeds on every call and returns one vector per
input string, `EmbedDocs` returns no error and `N` vectors, which are the
replies of the calls in order; the calls carry the chunks of the documents in
document order, there are `ceil(N/512)` of them, and none carries more than 512
documents. -/
theorem EmbedDocs_batches {σ : Type}
    (call : List Bytes → σ → Except GoError (List Vector) × σ)
    (hcall : ∀ inputs s, ∃ vs, (call inputs s).1 = .ok vs ∧ vs.length = inputs.length)
    (docs : List EmbedDoc) (s0 : σ) :
    ∃ s1 log,
      EmbedDocsOver (recording call) docs (s0, [])
        = ((log.flatMap CallRecord.vectors, none), (s1, log)) ∧
      (log.flatMap CallRecord.vectors).length = docs.length ∧
      log.map CallRecord.inputs = (Chunk docs maxBatch).map (fun c => c.map inputOf) ∧
      (log.map CallRecord.inputs).flatten = docs.map inputOf ∧
      log.length = (docs.length + 511) / 512 ∧
      ∀ r ∈ log, r.inputs.length ≤ 512 ∧ ∃ vs, r.reply = .ok vs ∧ vs.length = r.inputs.length := by
  obtain ⟨s1, log, hrun, hin, hrep⟩ :=
    embedDocsLoop_recording call hcall (Chunk docs maxBatch) [] s0 []
  have hflat : (log.map CallRecord.inputs).flatten = docs.map inputOf := by
    rw [hin, ← List.map_flatten, Chunk_flatten docs maxBatch (by decide)]
  have hlen : log.length = (docs.length + 511) / 512 := by
    have h1 : (log.map CallRecord.inputs).length = (Chunk docs maxBatch).length := by
      rw [hin, List.length_map]
    rw [List.length_map] at h1
    rw [h1]
    have := chunkLoop_count docs docs.length 0 (by omega)
    simpa [Chunk, maxBatch] using this
  refine ⟨s1, log, ?_, ?_, hin, hflat, hlen, ?_⟩
  · simpa [EmbedDocsOver] using hrun
  · rw [vectors_length_sum log hrep, hflat, List.length_map]
  · intro r hr
    refine ⟨?_, hrep r hr⟩
    have hmem : r.inputs ∈ (Chunk docs maxBatch).map (fun c => c.map inputOf) := by
      rw [← hin]; exact List.mem_map_of_mem _ hr
    obtain ⟨c, hc, hceq⟩ := List.mem_map.mp hmem
    rw [← hceq, List.length_map]
    exact chunkLoop_bound docs maxBatch _ _ c hc

theorem EmbedDocs_batches_witness :
    ∃ s1 log,
      EmbedDocsOver (recording (fun inputs (k : Nat) =>
          ((.ok (inputs.map (fun _ => [Float32.zero])) : Except GoError (List Vector)), k + 1)))
        [⟨ascii "A", ascii "B"⟩, ⟨[], ascii "B"⟩] (0, [])
        = ((log.flatMap CallRecord.vectors, none), (s1, log)) ∧
      (log.flatMap CallRecord.vectors).length = 2 ∧ log.length = 1 := by
  obtain ⟨s1, log, h1, h2, _, _, h5, _⟩ :=
    EmbedDocs_batches (fun inputs (k : Nat) =>
      ((.ok (inputs.map (fun _ => [Float32.zero])) : Except GoError (List Vector)), k + 1))
      (fun inputs _ => ⟨_, rfl, by simp⟩) [⟨ascii "A", ascii "B"⟩, ⟨[], ascii "B"⟩] 0
  exact ⟨s1, log, h1, h2, h5⟩

/-- C3, as the code has it: whenever `EmbedDocs` returns an error, the vector
slice returned with it is nil, whatever earlier chunks produced. -/
theorem EmbedDocs_error_returns_nil {σ : Type}
    (call : List Bytes → σ → Except GoError (List Vector) × σ) (docs : List EmbedDoc) (s : σ)
    (h : (EmbedDocsOver call docs s).1.2 ≠ none) : (EmbedDocsOver call docs s).1.1 = [] :=
  embedDocsLoop_error call _ _ _ h

theorem EmbedDocs_error_returns_nil_witness :
    (EmbedDocsOver failAfterFirst [⟨[], ascii "B"⟩] 1).1.2 ≠ none ∧
    (EmbedDocsOver failAfterFirst [⟨[], ascii "B"⟩] 1).1.1 = [] :=
  ⟨by decide, EmbedDocs_error_returns_nil failAfterFirst [⟨[], ascii "B"⟩] 1 (by decide)⟩

set_option maxRecDepth 1000000 in
/-- C3 fails on the code: with 513 documents the first chunk of 512 succeeds and
yields 512 vectors, the second chunk fails, and `EmbedDocs` returns the error
with no vector at all. -/
theorem EmbedDocs_lost_vectors_counterexample :
    (failAfterFirst ((List.replicate 512 (⟨[], []⟩ : EmbedDoc)).map inputOf) 0).1
      = .ok (List.replicate 512 []) ∧
    Chunk (List.replicate 513 (⟨[], []⟩ : EmbedDoc)) maxBatch
      = [List.replicate 512 ⟨[], []⟩, [⟨[], []⟩]] ∧
    EmbedDocsOver failAfterFirst (List.replicate 513 ⟨[], []⟩) 0
      = (([], some ⟨ascii "connection refused"⟩), 2) := by
  decide

end Rmcp.ollama

/-! ## Error classification, generation and response assembly -/

namespace Rmcp.ollama

open llm

/-- C4, as the code has it: for a response with status 400 whose body decodes
to the error string `e`, the message of the error `embedError` returns is
`ollama response error: ` followed by `e`. -/
theorem embedError_bad_request (unmarshalError : Bytes → Except GoError Bytes)
    (resp : HttpResponse) (embResp e : Bytes) (hstatus : resp.StatusCode = 400)
    (hbody : unmarshalError embResp = .ok e) :
    embedError unmarshalError resp embResp = some ⟨ascii "ollama response error: " ++ e⟩ := by
  unfold embedError
  rw [hstatus, if_neg (by decide), if_pos rfl, hbody]

theorem embedError_bad_request_witness :
    embedError json.unmarshalError ⟨400, ascii "400 Bad Request", .ok (ascii "\x7b\"error\":\"bad request\"\x7d")⟩
      (ascii "\x7b\"error\":\"bad request\"\x7d")
      = some ⟨ascii "ollama response error: " ++ ascii "bad request"⟩ :=
  embedError_bad_request json.unmarshalError _ _ _ rfl (by decide)

/-- C4 fails on the code: for status 400 and the body `{"error":"bad request"}`
the message is `ollama response error: bad request`, not `bad request`. -/
theorem embedError_message_counterexample :
    json.unmarshalError (ascii "\x7b\"error\":\"bad request\"\x7d") = .ok (ascii "bad request") ∧
    embedError json.unmarshalError
      ⟨400, ascii "400 Bad Request", .ok (ascii "\x7b\"error\":\"bad request\"\x7d")⟩
      (ascii "\x7b\"error\":\"bad request\"\x7d")
      = some ⟨ascii "ollama response error: bad request"⟩ ∧
    ascii "ollama response error: bad request" ≠ ascii "bad request" := by
  decide

/-- C5 fails on the code: when the server answers both requests of a generation
call with status 500, `Client.Prompt` returns the body as a successful result,
while `embedError` classifies the same response as an error. -/
theorem Prompt_ignores_status :
    Client.Prompt (fun u p => u ++ p) (fun _ => .ok (ascii "chat")) (fun _ => .ok (ascii "ask"))
        (fun url body => .ok ⟨url, body⟩)
        ⟨fixedServer 500 (ascii "500 Internal Server Error") (ascii "oops"),
          ascii "http://127.0.0.1:11434", ascii "deepseek-r1:7b"⟩
        (ascii "hello") ()
      = (.ok (ascii "oops"), ()) ∧
    embedError json.unmarshalError
        ⟨500, ascii "500 Internal Server Error", .ok (ascii "oops")⟩ (ascii "oops")
      = some ⟨ascii "ollama response error: 500 Internal Server Error"⟩ := by
  decide

/-- C6: for lines that hold no newline and each decode to a response object,
`AssembleRsp` on the lines joined by single newlines returns no error and the
concatenation of the `response` fields in line order, whatever the other fields
(the `done` flag among them) hold. -/
theorem AssembleRsp_concatenates (unmarshal : Bytes → Except GoError Response)
    (lines : List Bytes) (rs : List Response) (hne : lines ≠ [])
    (hnl : ∀ l ∈ lines, 10 ∉ l)
    (hdec : List.Forall₂ (fun l r => unmarshal l = .ok r) lines rs) :
    AssembleRsp unmarshal (List.intercalate [10] lines)
      = ((rs.map (fun r => r.Response)).flatten, none) := by
  unfold AssembleRsp
  rw [splitLines_intercalate lines hne hnl, assembleLoop_ok unmarshal lines rs [] hdec]
  rfl

theorem AssembleRsp_concatenates_witness :
    AssembleRsp json.unmarshalResponse
      (List.intercalate [10] [ascii "\x7b\"response\":\"Hel\",\"done\":false\x7d",
        ascii "\x7b\"response\":\"lo\",\"done\":true\x7d"])
      = (ascii "Hello", none) :=
  AssembleRsp_concatenates json.unmarshalResponse
    [ascii "\x7b\"response\":\"Hel\",\"done\":false\x7d",
      ascii "\x7b\"response\":\"lo\",\"done\":true\x7d"]
    [⟨[], [], ascii "Hel", false⟩, ⟨[], [], ascii "lo", true⟩]
    (by decide) (by decide)
    (List.Forall₂.cons (by decide) (List.Forall₂.cons (by decide) List.Forall₂.nil))

/-- C7, as the code has it: when some line fails to decode, `AssembleRsp` stops
at the first such line and returns its error together with the text assembled
from the lines before it. -/
theorem AssembleRsp_error_keeps_text (unmarshal : Bytes → Except GoError Response) (d : Bytes)
    (hbad : ∃ l ∈ splitLines d, ∃ e, unmarshal l = .error e) :
    ∃ pre bad post rs err, splitLines d = pre ++ bad :: post ∧
      List.Forall₂ (fun l r => unmarshal l = .ok r) pre rs ∧
      unmarshal bad = .error err ∧
      AssembleRsp unmarshal d = ((rs.map (fun r => r.Response)).flatten, some err) :=
  assemble_stops_at_first_failure unmarshal d hbad

theorem AssembleRsp_error_keeps_text_witness :
    ∃ pre bad post rs err,
      splitLines (ascii "\x7b\"response\":\"Hel\"\x7d\nxx") = pre ++ bad :: post ∧
      List.Forall₂ (fun l r => json.unmarshalResponse l = .ok r) pre rs ∧
      json.unmarshalResponse bad = .error err ∧
      AssembleRsp json.unmarshalResponse (ascii "\x7b\"response\":\"Hel\"\x7d\nxx")
        = ((rs.map (fun r => r.Response)).flatten, some err) :=
  AssembleRsp_error_keeps_text json.unmarshalResponse _
    ⟨ascii "xx", by decide, json.invalidInput, by decide⟩

/-- C7 fails on the code: with a malformed middle line after the line
`{"response":"Hel","done":false}`, `AssembleRsp` returns the error together
with the text `Hel`, not an empty text. -/
theorem AssembleRsp_kept_text_counterexample :
    (∃ l ∈ splitLines (ascii
        "\x7b\"response\":\"Hel\",\"done\":false\x7d\nxx\n\x7b\"response\":\"lo\",\"done\":true\x7d"),
      json.unmarshalResponse l = .error json.invalidInput) ∧
    AssembleRsp json.unmarshalResponse (ascii
        "\x7b\"response\":\"Hel\",\"done\":false\x7d\nxx\n\x7b\"response\":\"lo\",\"done\":true\x7d")
      = (ascii "Hel", some json.invalidInput) ∧
    ascii "Hel" ≠ [] := by
  refine ⟨⟨ascii "xx", by decide, by decide⟩, by decide, by decide⟩

/-- C10: when the decoder rejects the empty input, as `json.Unmarshal` does, an
input that is empty or ends with a newline has an empty last line, and
`AssembleRsp` returns an error on it whatever the lines before hold. -/
theorem AssembleRsp_trailing_newline (unmarshal : Bytes → Except GoError Response)
    (hempty : ∃ e, unmarshal [] = .error e) (d : Bytes)
    (hd : d = [] ∨ d.getLast? = some 10) :
    (splitLines d).getLast? = some [] ∧ ∃ err, (AssembleRsp unmarshal d).2 = some err := by
  have hlast : (splitLines d).getLast? = some [] := by
    rcases hd with rfl | hd
    · rfl
    · have hne : d ≠ [] := by intro h; subst h; simp at hd
      have hd2 : d = d.dropLast ++ [10] := by
        have h1 := List.dropLast_append_getLast? 10 (by simpa using hd)
        exact h1.symm
      rw [hd2, splitLines_snoc_newline]
      simp
  refine ⟨hlast, ?_⟩
  have hmem : [] ∈ splitLines d := List.mem_of_getLast?_eq_some hlast
  obtain ⟨e, he⟩ := hempty
  obtain ⟨_, _, _, _, err, _, _, _, hres⟩ :=
    assemble_stops_at_first_failure unmarshal d ⟨[], hmem, e, he⟩
  exact ⟨err, by rw [hres]⟩

theorem AssembleRsp_trailing_newline_witness :
    (splitLines (ascii "\x7b\"response\":\"Hel\",\"done\":true\x7d\n")).getLast? = some [] ∧
    ∃ err, (AssembleRsp json.unmarshalResponse
      (ascii "\x7b\"response\":\"Hel\",\"done\":true\x7d\n")).2 = some err :=
  AssembleRsp_trailing_newline json.unmarshalResponse ⟨json.invalidInput, by decide⟩ _
    (Or.inr (by decide))

end Rmcp.ollama
